import Mathlib

/-!
# Verification of the RoboSkills SkillChart layout engine

Shallow embedding of the layout/physics code of `src/components/SkillChart.tsx`
(the packed-dots variant, called "Dots" below) and its pie-chart sibling
(called "Pie" below).  JavaScript numbers are modelled as `ℚ` where the code
only adds, multiplies and divides, and as `ℝ` where `Math.sqrt` is involved.
JavaScript plain-object records (`Record<string, T>`) are modelled as
association lists with JS update semantics (insert at the end on a fresh key,
update in place on an existing key).
-/

namespace RoboSkills

/-! ## Data model (interfaces of `SkillChart.tsx`) -/

/-- `interface Skill` — only the fields the layout engine reads. -/
structure Skill where
  id : String
  name : String
  belongsTo : List String
  deriving Repr, DecidableEq

/-- `interface MemberSkill`: a `(skillId, proficiency)` pair. -/
structure MemberSkill where
  skillId : String
  proficiency : String
  deriving Repr, DecidableEq

/-- `interface Member` — only the fields the layout engine reads. -/
structure Member where
  id : String
  name : String
  role : String
  skills : List MemberSkill
  deriving Repr, DecidableEq

/-- `interface Category` — only the fields the layout engine reads. -/
structure Category where
  id : String
  name : String
  deriving Repr, DecidableEq

/-! ## `Array.prototype.join(',')` and the canonical combination key -/

/-- `Array.prototype.join(',')`: concatenate the strings, separated by commas. -/
def joinComma : List String → String
  | [] => ""
  | [s] => s
  | s :: rest => s ++ "," ++ joinComma rest

/-- `skill.belongsTo.slice().sort().join(',')` (lines 130/223 of
`SkillChart.tsx`): the canonical `CombinationKey` of a list of category ids.
`Array.prototype.sort()` on strings is lexicographic, modelled by
`List.insertionSort (· ≤ ·)` over Lean's lexicographic `String` order. -/
def setKey (belongsTo : List String) : String :=
  joinComma (belongsTo.insertionSort (· ≤ ·))

/-! ### Injectivity of `joinComma` on comma-free, non-empty components

Needed to show that distinct category subsets get distinct canonical keys. -/

/-- Character-level version of `joinComma`. -/
def dataJoin : List (List Char) → List Char
  | [] => []
  | [c] => c
  | c :: rest => c ++ ',' :: dataJoin rest

theorem joinComma_data : ∀ l : List String, (joinComma l).data = dataJoin (l.map String.data)
  | [] => rfl
  | [_] => rfl
  | s :: t :: rest => by
    show (s ++ "," ++ joinComma (t :: rest)).data = _
    rw [String.data_append, String.data_append, joinComma_data (t :: rest)]
    simp [dataJoin]

/-- Splitting a char list at the first comma is unambiguous when the prefixes
are comma-free. -/
theorem comma_split_unique : ∀ (a b x y : List Char), ',' ∉ a → ',' ∉ b →
    a ++ ',' :: x = b ++ ',' :: y → a = b ∧ x = y := by
  intro a
  induction a with
  | nil =>
    intro b x y _ hb h
    cases b with
    | nil => simpa using h
    | cons c b' =>
      simp only [List.nil_append, List.cons_append, List.cons.injEq] at h
      exact absurd (show ',' ∈ c :: b' by rw [h.1]; exact List.mem_cons_self _ _) hb
  | cons c a' ih =>
    intro b x y ha hb h
    cases b with
    | nil =>
      simp only [List.cons_append, List.nil_append, List.cons.injEq] at h
      exact absurd (show ',' ∈ c :: a' by rw [← h.1]; exact List.mem_cons_self _ _) ha
    | cons d b' =>
      simp only [List.cons_append, List.cons.injEq] at h
      obtain ⟨rfl, h2⟩ := h
      obtain ⟨rfl, rfl⟩ := ih b' x y (fun hm => ha (List.mem_cons_of_mem _ hm))
        (fun hm => hb (List.mem_cons_of_mem _ hm)) h2
      exact ⟨rfl, rfl⟩

/-- `dataJoin` is injective on lists of non-empty, comma-free components. -/
theorem dataJoin_inj : ∀ (l₁ l₂ : List (List Char)),
    (∀ c ∈ l₁, c ≠ [] ∧ ',' ∉ c) → (∀ c ∈ l₂, c ≠ [] ∧ ',' ∉ c) →
    dataJoin l₁ = dataJoin l₂ → l₁ = l₂ := by
  intro l₁
  induction l₁ with
  | nil =>
    intro l₂ _ h₂ h
    cases l₂ with
    | nil => rfl
    | cons c cs =>
      exfalso
      cases cs with
      | nil =>
        exact (h₂ c (List.mem_cons_self _ _)).1 (by simpa [dataJoin] using h.symm)
      | cons d ds =>
        have : dataJoin ([] : List (List Char)) = c ++ ',' :: dataJoin (d :: ds) := h
        simp only [dataJoin] at this
        cases c with
        | nil => simp at this
        | cons e es => simp at this
  | cons a as ih =>
    intro l₂ h₁ h₂ h
    cases l₂ with
    | nil =>
      exfalso
      cases as with
      | nil =>
        exact (h₁ a (List.mem_cons_self _ _)).1 (by simpa [dataJoin] using h)
      | cons b bs =>
        have : a ++ ',' :: dataJoin (b :: bs) = dataJoin ([] : List (List Char)) := h
        simp only [dataJoin] at this
        cases a with
        | nil => simp at this
        | cons e es => simp at this
    | cons c cs =>
      cases as with
      | nil =>
        cases cs with
        | nil => simpa [dataJoin] using h
        | cons d ds =>
          exfalso
          have : a = c ++ ',' :: dataJoin (d :: ds) := by simpa [dataJoin] using h
          exact (h₁ a (List.mem_cons_self _ _)).2 (this ▸ (by simp))
      | cons b bs =>
        cases cs with
        | nil =>
          exfalso
          have : c = a ++ ',' :: dataJoin (b :: bs) := by simpa [dataJoin] using h.symm
          exact (h₂ c (List.mem_cons_self _ _)).2 (this ▸ (by simp))
        | cons d ds =>
          have h' : a ++ ',' :: dataJoin (b :: bs) = c ++ ',' :: dataJoin (d :: ds) := by
            simpa [dataJoin] using h
          obtain ⟨rfl, htail⟩ := comma_split_unique a c _ _
            (h₁ a (List.mem_cons_self _ _)).2 (h₂ c (List.mem_cons_self _ _)).2 h'
          have := ih (d :: ds) (fun x hx => h₁ x (List.mem_cons_of_mem _ hx))
            (fun x hx => h₂ x (List.mem_cons_of_mem _ hx)) htail
          rw [this]

/-- Well-formedness of a category identifier: non-empty and comma-free
(these hold of every real id such as `"robotics"`). -/
def WFId (s : String) : Prop := s ≠ "" ∧ ',' ∉ s.data

theorem joinComma_inj {l₁ l₂ : List String}
    (h₁ : ∀ s ∈ l₁, WFId s) (h₂ : ∀ s ∈ l₂, WFId s)
    (h : joinComma l₁ = joinComma l₂) : l₁ = l₂ := by
  have hd : dataJoin (l₁.map String.data) = dataJoin (l₂.map String.data) := by
    rw [← joinComma_data, ← joinComma_data, h]
  have hinj := dataJoin_inj (l₁.map String.data) (l₂.map String.data)
    (by
      intro c hc
      obtain ⟨s, hs, rfl⟩ := List.mem_map.1 hc
      refine ⟨fun hne => (h₁ s hs).1 ?_, (h₁ s hs).2⟩
      cases s
      simpa [String.ext_iff] using hne)
    (by
      intro c hc
      obtain ⟨s, hs, rfl⟩ := List.mem_map.1 hc
      refine ⟨fun hne => (h₂ s hs).1 ?_, (h₂ s hs).2⟩
      cases s
      simpa [String.ext_iff] using hne)
    hd
  have : ∀ (m₁ m₂ : List String), m₁.map String.data = m₂.map String.data → m₁ = m₂ := by
    intro m₁
    induction m₁ with
    | nil => intro m₂ hm; cases m₂ <;> simp_all
    | cons x xs ihx =>
      intro m₂ hm
      cases m₂ with
      | nil => simp at hm
      | cons y ys =>
        simp only [List.map_cons, List.cons.injEq] at hm
        exact by rw [String.ext hm.1, ihx ys hm.2]
  exact this l₁ l₂ hinj

/-! ### `setKey` is permutation-invariant -/

theorem setKey_perm {l₁ l₂ : List String} (h : l₁.Perm l₂) : setKey l₁ = setKey l₂ := by
  unfold setKey
  congr 1
  exact List.eq_of_perm_of_sorted
    (((List.perm_insertionSort _ l₁).trans h).trans (List.perm_insertionSort _ l₂).symm)
    (List.sorted_insertionSort _ l₁) (List.sorted_insertionSort _ l₂)

/-- **C5.** For every skill, the derived `CombinationKey` is invariant under any
permutation of the skill's `belongsTo` array: two skills whose `belongsTo`
arrays contain the same category identifiers in any order are assigned the same
`CombinationKey` (hence the same cluster, since clusters are keyed by it). -/
theorem combinationKey_perm_invariant (s₁ s₂ : Skill)
    (h : s₁.belongsTo.Perm s₂.belongsTo) :
    setKey s₁.belongsTo = setKey s₂.belongsTo :=
  setKey_perm h

/-- Witness for C5 at a concrete input: `["b", "a"]` is a permutation of
`["a", "b"]` and both get the key `"a,b"`. -/
theorem combinationKey_perm_invariant_witness :
    setKey (Skill.mk "s1" "S1" ["b", "a"]).belongsTo
      = setKey (Skill.mk "s2" "S2" ["a", "b"]).belongsTo ∧
    setKey (Skill.mk "s2" "S2" ["a", "b"]).belongsTo = "a,b" :=
  ⟨combinationKey_perm_invariant (Skill.mk "s1" "S1" ["b", "a"])
      (Skill.mk "s2" "S2" ["a", "b"]) (by decide),
   by simp [setKey, joinComma, List.insertionSort, List.orderedInsert]⟩

/-! ## The area/intersection aggregator (`SkillChart.tsx` lines 120–167) -/

/-- Line 121: `skillListRaw.filter((skill) => memberList.some((m) =>
m.skills.some((s) => s.skillId === skill.id)))` — skills with no people are
filtered out. -/
def skillList (skillListRaw : List Skill) (memberList : List Member) : List Skill :=
  skillListRaw.filter fun skill =>
    memberList.any fun m => m.skills.any fun s => s.skillId == skill.id

/-- Lines 139–145: `arr.reduce((subsets, value) =>
subsets.concat(subsets.map((set) => [value, ...set])), [[]])` — all `2^|arr|`
subsets of `arr` (including the empty one). -/
def getSubsets (arr : List String) : List (List String) :=
  arr.foldl (fun subsets value => subsets ++ subsets.map (fun s => value :: s)) [[]]

theorem getSubsets_append (arr : List String) (v : String) :
    getSubsets (arr ++ [v]) = getSubsets arr ++ (getSubsets arr).map (v :: ·) := by
  unfold getSubsets
  rw [List.foldl_append]
  rfl

/-- Core counting lemma: over a duplicate-free id list `arr`, the subset
enumeration contains, for every duplicate-free `u ⊆ arr`, exactly one list that
is a permutation of `u` — and no list permuting anything else. -/
theorem countP_perm_getSubsets : ∀ (arr : List String), arr.Nodup →
    ∀ (u : List String),
    (getSubsets arr).countP (fun s => decide (s.Perm u)) =
      if u.Nodup ∧ u ⊆ arr then 1 else 0 := by
  intro arr
  induction arr using List.reverseRecOn with
  | nil =>
    intro _ u
    show List.countP _ [[]] = _
    rw [List.countP_cons, List.countP_nil]
    cases u with
    | nil => simp
    | cons x xs =>
      rw [if_neg (by simp [List.subset_def])]
      simp [List.nil_perm]
  | append_singleton l v ih =>
    intro hnd u
    have hl : l.Nodup := (List.nodup_append.1 hnd).1
    have hv : v ∉ l := by
      have := (List.nodup_append.1 hnd).2.2
      intro hmem
      exact this hmem (List.mem_singleton_self v)
    rw [getSubsets_append, List.countP_append, List.countP_map]
    by_cases hvu : v ∈ u
    · have h₁ : (getSubsets l).countP (fun s => decide (s.Perm u)) = 0 := by
        rw [ih hl u, if_neg]
        rintro ⟨-, hsub⟩
        exact hv (hsub hvu)
      have h₂ : (getSubsets l).countP ((fun s => decide (s.Perm u)) ∘ (v :: ·))
          = (getSubsets l).countP (fun s => decide (s.Perm (u.erase v))) := by
        apply List.countP_congr
        intro s _
        simp only [Function.comp_apply, decide_eq_true_eq]
        rw [List.cons_perm_iff_perm_erase]
        exact and_iff_right hvu
      rw [h₁, h₂, ih hl (u.erase v), Nat.zero_add]
      congr 1
      apply propext
      constructor
      · rintro ⟨hnd', hsub'⟩
        constructor
        · exact (List.perm_cons_erase hvu).nodup_iff.2
            (List.nodup_cons.2 ⟨fun hc => hv (hsub' hc), hnd'⟩)
        · intro x hx
          have : x ∈ v :: u.erase v := (List.perm_cons_erase hvu).subset hx
          rcases List.mem_cons.1 this with rfl | hx'
          · exact List.mem_append_right _ (List.mem_singleton_self x)
          · exact List.mem_append_left _ (hsub' hx')
      · rintro ⟨hnd', hsub'⟩
        refine ⟨hnd'.erase v, fun x hx => ?_⟩
        have hxu : x ∈ u := List.mem_of_mem_erase hx
        rcases List.mem_append.1 (hsub' hxu) with hxl | hxv
        · exact hxl
        · exfalso
          rw [List.mem_singleton] at hxv
          subst hxv
          exact hnd'.not_mem_erase hx
    · have h₂ : (getSubsets l).countP ((fun s => decide (s.Perm u)) ∘ (v :: ·)) = 0 := by
        rw [List.countP_eq_zero]
        intro s _
        simp only [Function.comp_apply, decide_eq_true_eq]
        intro hperm
        exact hvu (hperm.subset (List.mem_cons_self v s))
      rw [h₂, ih hl u, Nat.add_zero]
      congr 1
      apply propext
      constructor
      · rintro ⟨hnd', hsub'⟩
        exact ⟨hnd', fun x hx => List.mem_append_left _ (hsub' hx)⟩
      · rintro ⟨hnd', hsub'⟩
        refine ⟨hnd', fun x hx => ?_⟩
        rcases List.mem_append.1 (hsub' hx) with hxl | hxv
        · exact hxl
        · exact absurd (List.mem_singleton.1 hxv ▸ hx) hvu

/-- Every enumerated subset of a duplicate-free list is duplicate-free and
contained in the list. -/
theorem mem_getSubsets {arr : List String} (hnd : arr.Nodup) {sub : List String}
    (hmem : sub ∈ getSubsets arr) : sub.Nodup ∧ sub ⊆ arr := by
  have hpos : 0 < (getSubsets arr).countP (fun s => decide (s.Perm sub)) :=
    List.countP_pos_iff.2 ⟨sub, hmem, by simp⟩
  rw [countP_perm_getSubsets arr hnd sub] at hpos
  by_contra hcon
  rw [if_neg hcon] at hpos
  exact Nat.lt_irrefl 0 hpos

/-! ### `Record<string, number>` with JS plain-object semantics -/

/-- Reading `m[k]`, with `undefined` coerced to `0` (the `|| 0` in the source). -/
def getVal : List (String × Nat) → String → Nat
  | [], _ => 0
  | p :: rest, k => if p.1 = k then p.2 else getVal rest k

/-- Whether `k` is a key of the record. -/
def hasKey : List (String × Nat) → String → Bool
  | [], _ => false
  | p :: rest, k => p.1 == k || hasKey rest k

/-- Overwrite every entry whose key is `k` (a JS object has at most one). -/
def updateVal : List (String × Nat) → String → Nat → List (String × Nat)
  | [], _, _ => []
  | p :: rest, k, v => (if p.1 = k then (k, v) else p) :: updateVal rest k v

/-- `m[k] = v`: update in place when the key exists, append otherwise. -/
def setVal (m : List (String × Nat)) (k : String) (v : Nat) : List (String × Nat) :=
  if hasKey m k then updateVal m k v else m ++ [(k, v)]

/-- `m[k] = (m[k] || 0) + 1`. -/
def bump (m : List (String × Nat)) (k : String) : List (String × Nat) :=
  setVal m k (getVal m k + 1)

theorem getVal_eq_zero_of_not_hasKey : ∀ (m : List (String × Nat)) (k : String),
    hasKey m k = false → getVal m k = 0 := by
  intro m
  induction m with
  | nil => intro k _; rfl
  | cons p rest ih =>
    intro k h
    simp only [hasKey, Bool.or_eq_false_iff, beq_eq_false_iff_ne] at h
    simp only [getVal, if_neg h.1]
    exact ih k h.2

theorem getVal_updateVal_ne : ∀ (m : List (String × Nat)) (k k' : String) (v : Nat),
    k' ≠ k → getVal (updateVal m k v) k' = getVal m k' := by
  intro m
  induction m with
  | nil => intro _ _ _ _; rfl
  | cons p rest ih =>
    intro k k' v hne
    by_cases hp : p.1 = k
    · simp only [updateVal, if_pos hp, getVal, if_neg (Ne.symm hne), if_neg (hp ▸ (Ne.symm hne))]
      exact ih k k' v hne
    · simp only [updateVal, if_neg hp, getVal]
      by_cases hp' : p.1 = k'
      · rw [if_pos hp', if_pos hp']
      · rw [if_neg hp', if_neg hp']
        exact ih k k' v hne

theorem getVal_updateVal_self : ∀ (m : List (String × Nat)) (k : String) (v : Nat),
    hasKey m k = true → getVal (updateVal m k v) k = v := by
  intro m
  induction m with
  | nil => intro k v h; simp [hasKey] at h
  | cons p rest ih =>
    intro k v h
    by_cases hp : p.1 = k
    · simp [updateVal, if_pos hp, getVal]
    · simp only [hasKey, Bool.or_eq_true, beq_iff_eq] at h
      rcases h with h | h
      · exact absurd h hp
      · simp only [updateVal, if_neg hp, getVal, if_neg hp]
        exact ih k v h

theorem getVal_append_single_ne (m : List (String × Nat)) (k k' : String) (v : Nat)
    (hne : k' ≠ k) : getVal (m ++ [(k, v)]) k' = getVal m k' := by
  induction m with
  | nil =>
    simp only [List.nil_append, getVal]
    rw [if_neg (Ne.symm hne)]
  | cons p rest ih =>
    simp only [List.cons_append, getVal]
    by_cases hp : p.1 = k'
    · rw [if_pos hp, if_pos hp]
    · rw [if_neg hp, if_neg hp]
      exact ih

theorem getVal_append_single_self (m : List (String × Nat)) (k : String) (v : Nat)
    (h : hasKey m k = false) : getVal (m ++ [(k, v)]) k = v := by
  induction m with
  | nil => simp [getVal]
  | cons p rest ih =>
    simp only [hasKey, Bool.or_eq_false_iff, beq_eq_false_iff_ne] at h
    simp only [List.cons_append, getVal, if_neg h.1]
    exact ih h.2

/-- The single reading lemma for `bump`. -/
theorem getVal_bump (m : List (String × Nat)) (k k' : String) :
    getVal (bump m k') k = getVal m k + if k = k' then 1 else 0 := by
  unfold bump setVal
  by_cases hk : hasKey m k' = true
  · rw [if_pos hk]
    by_cases he : k = k'
    · subst he
      rw [getVal_updateVal_self m k _ hk, if_pos rfl]
    · rw [getVal_updateVal_ne m k' k _ he, if_neg he, Nat.add_zero]
  · rw [if_neg hk]
    by_cases he : k = k'
    · subst he
      rw [getVal_append_single_self m k _ (by simpa using hk),
        getVal_eq_zero_of_not_hasKey m k (by simpa using hk), if_pos rfl]
    · rw [getVal_append_single_ne m k' k _ he, if_neg he, Nat.add_zero]

theorem hasKey_updateVal : ∀ (m : List (String × Nat)) (k : String) (v : Nat) (k' : String),
    hasKey (updateVal m k v) k' = hasKey m k' := by
  intro m
  induction m with
  | nil => intro _ _ _; rfl
  | cons p rest ih =>
    intro k v k'
    by_cases hp : p.1 = k
    · simp [updateVal, hasKey, ih, hp]
    · simp only [updateVal, if_neg hp, hasKey, ih]

theorem hasKey_append_single : ∀ (m : List (String × Nat)) (q : String) (v : Nat) (k : String),
    hasKey (m ++ [(q, v)]) k = (hasKey m k || k == q) := by
  intro m
  induction m with
  | nil =>
    intro q v k
    by_cases he : q = k
    · subst he
      simp [hasKey]
    · simp [hasKey, he, Ne.symm he]
  | cons p rest ih =>
    intro q v k
    simp only [List.cons_append, hasKey, List.append_eq, ih, Bool.or_assoc]

theorem hasKey_bump (m : List (String × Nat)) (k k' : String) :
    hasKey (bump m k') k = (hasKey m k || k == k') := by
  unfold bump setVal
  by_cases hk : hasKey m k' = true
  · rw [if_pos hk, hasKey_updateVal]
    by_cases he : k = k'
    · subst he
      simp [hk]
    · simp [he]
  · rw [if_neg hk, hasKey_append_single]

theorem mem_updateVal : ∀ {m : List (String × Nat)} {k : String} {v : Nat}
    {p : String × Nat}, p ∈ updateVal m k v → p = (k, v) ∨ p ∈ m := by
  intro m
  induction m with
  | nil => intro _ _ _ h; simp [updateVal] at h
  | cons q rest ih =>
    intro k v p h
    simp only [updateVal, List.mem_cons] at h
    rcases h with h | h
    · by_cases hq : q.1 = k
      · rw [if_pos hq] at h
        exact Or.inl h
      · rw [if_neg hq] at h
        exact Or.inr (List.mem_cons.2 (Or.inl h))
    · rcases ih h with h' | h'
      · exact Or.inl h'
      · exact Or.inr (List.mem_cons.2 (Or.inr h'))

/-- Membership in an updated record. -/
theorem mem_bump {m : List (String × Nat)} {k : String} {p : String × Nat}
    (h : p ∈ bump m k) : p = (k, getVal m k + 1) ∨ p ∈ m := by
  unfold bump setVal at h
  by_cases hk : hasKey m k = true
  · rw [if_pos hk] at h
    exact mem_updateVal h
  · rw [if_neg hk] at h
    rcases List.mem_append.1 h with h | h
    · exact Or.inr h
    · exact Or.inl (List.mem_singleton.1 h)

/-! ### The subset-size table (`SkillChart.tsx` lines 147–155) -/

/-- Lines 147–155: for each skill enumerate `getSubsets(skill.belongsTo)`, skip
the empty subset, canonicalize (`subset.sort().join(',')`) and increment
`setSizes[key]`. -/
def setSizes (skills : List Skill) : List (String × Nat) :=
  skills.foldl
    (fun m skill =>
      (getSubsets skill.belongsTo).foldl
        (fun m subset => if subset.isEmpty then m else bump m (setKey subset)) m)
    []

theorem getVal_innerFold : ∀ (l : List (List String)) (m : List (String × Nat)) (k : String),
    getVal (l.foldl (fun m subset => if subset.isEmpty then m else bump m (setKey subset)) m) k
      = getVal m k + l.countP (fun sub => !sub.isEmpty && (setKey sub == k)) := by
  intro l
  induction l with
  | nil => intro m k; simp [List.countP_nil]
  | cons s l ih =>
    intro m k
    rw [List.foldl_cons, ih, List.countP_cons]
    by_cases hs : s.isEmpty
    · have hpred : (!s.isEmpty && (setKey s == k)) = false := by rw [hs]; rfl
      rw [if_pos hs, hpred]
      simp
    · have hs' : s.isEmpty = false := by revert hs; cases s.isEmpty <;> simp
      have hpred : (!s.isEmpty && (setKey s == k)) = (setKey s == k) := by rw [hs']; rfl
      rw [if_neg hs, getVal_bump, hpred]
      by_cases he : k = setKey s
      · have hb : (setKey s == k) = true := by simp [he]
        rw [if_pos he, hb]
        simp
        omega
      · have hb : (setKey s == k) = false := by simp; exact fun h => he h.symm
        rw [if_neg he, hb]
        simp

theorem getVal_setSizes_fold : ∀ (skills : List Skill) (m : List (String × Nat)) (k : String),
    getVal (skills.foldl
      (fun m skill =>
        (getSubsets skill.belongsTo).foldl
          (fun m subset => if subset.isEmpty then m else bump m (setKey subset)) m) m) k
      = getVal m k
        + (skills.map (fun t =>
            (getSubsets t.belongsTo).countP (fun sub => !sub.isEmpty && (setKey sub == k)))).sum := by
  intro skills
  induction skills with
  | nil => intro m k; simp
  | cons sk skills ih =>
    intro m k
    rw [List.foldl_cons, ih, getVal_innerFold, List.map_cons, List.sum_cons]
    omega

/-- `setKey` is injective up to permutation, on well-formed id lists. -/
theorem setKey_inj {l₁ l₂ : List String} (h₁ : ∀ s ∈ l₁, WFId s) (h₂ : ∀ s ∈ l₂, WFId s)
    (h : setKey l₁ = setKey l₂) : l₁.Perm l₂ := by
  unfold setKey at h
  have heq := joinComma_inj
    (fun s hs => h₁ s ((List.perm_insertionSort _ l₁).subset hs))
    (fun s hs => h₂ s ((List.perm_insertionSort _ l₂).subset hs)) h
  exact ((List.perm_insertionSort _ l₁).symm.trans (heq ▸ List.perm_insertionSort _ l₂))

/-- One skill's contribution to the table entry of a canonical key: `1` when
the key's subset is contained in the skill's categories, `0` otherwise. -/
theorem skill_contribution (arr : List String) (hnd : arr.Nodup)
    (hwf : ∀ c ∈ arr, WFId c) (S : List String) (hS : S ≠ []) (hSnd : S.Nodup)
    (hwfS : ∀ c ∈ S, WFId c) :
    (getSubsets arr).countP (fun sub => !sub.isEmpty && (setKey sub == setKey S))
      = if S ⊆ arr then 1 else 0 := by
  have hcongr : (getSubsets arr).countP (fun sub => !sub.isEmpty && (setKey sub == setKey S))
      = (getSubsets arr).countP (fun s => decide (s.Perm S)) := by
    apply List.countP_congr
    intro sub hmem
    obtain ⟨hsubnd, hsubsub⟩ := mem_getSubsets hnd hmem
    simp only [Bool.and_eq_true, Bool.not_eq_true', beq_iff_eq, decide_eq_true_eq]
    constructor
    · rintro ⟨-, hkey⟩
      exact setKey_inj (fun c hc => hwf c (hsubsub hc)) hwfS hkey
    · intro hperm
      cases sub with
      | nil => exact absurd (List.nil_perm.1 hperm) hS
      | cons a t => exact ⟨rfl, setKey_perm hperm⟩
  rw [hcongr, countP_perm_getSubsets arr hnd S, if_congr (and_iff_right hSnd) rfl rfl]

theorem sum_map_ite_eq_countP (l : List Skill) (p : Skill → Prop) [DecidablePred p] :
    (l.map (fun a => if p a then 1 else 0)).sum = l.countP (fun a => decide (p a)) := by
  induction l with
  | nil => rfl
  | cons a l ih =>
    rw [List.map_cons, List.sum_cons, List.countP_cons, ih]
    by_cases hp : p a
    · simp [hp]
      omega
    · simp [hp]

/-- The table entry at the canonical key of any non-empty, duplicate-free,
well-formed subset `S` counts the skills whose `belongsTo` contains `S`. -/
theorem getVal_setSizes_eq_countP (qs : List Skill)
    (hnd : ∀ sk ∈ qs, sk.belongsTo.Nodup)
    (hwf : ∀ sk ∈ qs, ∀ c ∈ sk.belongsTo, WFId c)
    (S : List String) (hS : S ≠ []) (hSnd : S.Nodup) (hwfS : ∀ c ∈ S, WFId c) :
    getVal (setSizes qs) (setKey S) = qs.countP (fun t => decide (S ⊆ t.belongsTo)) := by
  unfold setSizes
  rw [getVal_setSizes_fold]
  rw [List.map_congr_left (fun t ht =>
    skill_contribution t.belongsTo (hnd t ht) (hwf t ht) S hS hSnd hwfS)]
  rw [sum_map_ite_eq_countP]
  simp [getVal]

/-- Every key of the table arose from some skill's non-empty subset. -/
theorem hasKey_setSizes_inner : ∀ (l : List (List String)) (m : List (String × Nat)) (k : String),
    hasKey (l.foldl (fun m subset => if subset.isEmpty then m else bump m (setKey subset)) m) k
        = true →
    hasKey m k = true ∨ ∃ sub ∈ l, sub ≠ [] ∧ setKey sub = k := by
  intro l
  induction l with
  | nil => intro m k h; exact Or.inl h
  | cons s l ih =>
    intro m k h
    rw [List.foldl_cons] at h
    rcases ih _ k h with h' | ⟨sub, hsub, hne, hkey⟩
    · by_cases hs : s.isEmpty
      · rw [if_pos hs] at h'
        exact Or.inl h'
      · rw [if_neg hs, hasKey_bump, Bool.or_eq_true] at h'
        rcases h' with h' | h'
        · exact Or.inl h'
        · refine Or.inr ⟨s, List.mem_cons_self _ _, ?_, (beq_iff_eq.1 h').symm⟩
          intro hnil
          exact hs (by rw [hnil]; rfl)
    · exact Or.inr ⟨sub, List.mem_cons_of_mem _ hsub, hne, hkey⟩

theorem hasKey_setSizes : ∀ (skills : List Skill) (m : List (String × Nat)) (k : String),
    hasKey (skills.foldl
      (fun m skill =>
        (getSubsets skill.belongsTo).foldl
          (fun m subset => if subset.isEmpty then m else bump m (setKey subset)) m) m) k = true →
    hasKey m k = true
      ∨ ∃ sk ∈ skills, ∃ sub ∈ getSubsets sk.belongsTo, sub ≠ [] ∧ setKey sub = k := by
  intro skills
  induction skills with
  | nil => intro m k h; exact Or.inl h
  | cons sk skills ih =>
    intro m k h
    rw [List.foldl_cons] at h
    rcases ih _ k h with h' | ⟨t, ht, sub, hsub, hne, hkey⟩
    · rcases hasKey_setSizes_inner _ _ _ h' with h'' | ⟨sub, hsub, hne, hkey⟩
      · exact Or.inl h''
      · exact Or.inr ⟨sk, List.mem_cons_self _ _, sub, hsub, hne, hkey⟩
    · exact Or.inr ⟨t, List.mem_cons_of_mem _ ht, sub, hsub, hne, hkey⟩

/-- **C2.** The aggregator, run on the filtered skill list, produces exactly
the subset-count table: (i) for every skill and every non-empty duplicate-free
subset `S` of its `belongsTo` set, the table entry at the canonical key of `S`
equals the number of filtered skills whose `belongsTo` is a superset of `S`
(so each skill increments each of its `2^|belongsTo| − 1` non-empty subsets by
exactly one); and (ii) every key of the table is the canonical key of a
non-empty subset of some filtered skill's `belongsTo`. -/
theorem aggregator_exact (skillListRaw : List Skill) (memberList : List Member)
    (hnd : ∀ sk ∈ skillList skillListRaw memberList, sk.belongsTo.Nodup)
    (hwf : ∀ sk ∈ skillList skillListRaw memberList, ∀ c ∈ sk.belongsTo, WFId c) :
    (∀ sk ∈ skillList skillListRaw memberList, ∀ S : List String,
        S ≠ [] → S.Nodup → S ⊆ sk.belongsTo →
        getVal (setSizes (skillList skillListRaw memberList)) (setKey S)
          = (skillList skillListRaw memberList).countP (fun t => decide (S ⊆ t.belongsTo)))
    ∧ (∀ k, hasKey (setSizes (skillList skillListRaw memberList)) k = true →
        ∃ sk ∈ skillList skillListRaw memberList, ∃ S : List String,
          S ≠ [] ∧ S.Nodup ∧ S ⊆ sk.belongsTo ∧ setKey S = k) := by
  constructor
  · intro sk hsk S hS hSnd hSsub
    exact getVal_setSizes_eq_countP _ hnd hwf S hS hSnd
      (fun c hc => hwf sk hsk c (hSsub hc))
  · intro k h
    rcases hasKey_setSizes _ _ _ h with h' | ⟨sk, hsk, sub, hsub, hne, hkey⟩
    · exact absurd h' (by simp [hasKey])
    · obtain ⟨hsubnd, hsubsub⟩ := mem_getSubsets (hnd sk hsk) hsub
      exact ⟨sk, hsk, sub, hne, hsubnd, hsubsub, hkey⟩

/-- Witness for C2: one member knows both skills; the skill `s1 ∈ {a, b}` and
`s2 ∈ {a}` give the table `a ↦ 2, b ↦ 1, a,b ↦ 1`; checked here at `S = ["a"]`
for the skill `s1`. -/
theorem aggregator_exact_witness :
    getVal
      (setSizes (skillList
        [Skill.mk "s1" "S1" ["a", "b"], Skill.mk "s2" "S2" ["a"]]
        [Member.mk "m1" "M1" "dev" [MemberSkill.mk "s1" "expert", MemberSkill.mk "s2" "novice"]]))
      (setKey ["a"]) = 2 := by
  have h := (aggregator_exact
    [Skill.mk "s1" "S1" ["a", "b"], Skill.mk "s2" "S2" ["a"]]
    [Member.mk "m1" "M1" "dev" [MemberSkill.mk "s1" "expert", MemberSkill.mk "s2" "novice"]]
    (by intro sk hsk; fin_cases hsk <;> decide)
    (by
      intro sk hsk
      fin_cases hsk <;> intro c hc <;> fin_cases hc <;>
        exact ⟨by decide, by decide⟩)).1
  rw [h (Skill.mk "s1" "S1" ["a", "b"]) (by simp [skillList]) ["a"]
    (by decide) (by decide) (by decide)]
  decide

theorem hasKey_of_getVal_pos {m : List (String × Nat)} {k : String}
    (h : 0 < getVal m k) : hasKey m k = true := by
  cases hh : hasKey m k
  · rw [getVal_eq_zero_of_not_hasKey m k hh] at h
    exact absurd h (Nat.lt_irrefl 0)
  · rfl

/-- A key present in the table is the canonical key of a non-empty set of
categories carried by some aggregated skill. -/
theorem hasKey_canonical (qs : List Skill)
    (hnd : ∀ sk ∈ qs, sk.belongsTo.Nodup)
    (hwf : ∀ sk ∈ qs, ∀ c ∈ sk.belongsTo, WFId c)
    {U : List String} (hwfU : ∀ c ∈ U, WFId c)
    (h : hasKey (setSizes qs) (setKey U) = true) :
    U ≠ [] ∧ ∃ sk ∈ qs, U ⊆ sk.belongsTo := by
  rcases hasKey_setSizes qs [] (setKey U) h with h' | ⟨sk, hsk, sub, hsub, hne, hkey⟩
  · exact absurd h' (by simp [hasKey])
  · obtain ⟨hsubnd, hsubsub⟩ := mem_getSubsets (hnd sk hsk) hsub
    have hperm : sub.Perm U :=
      setKey_inj (fun c hc => hwf sk hsk c (hsubsub hc)) hwfU hkey
    refine ⟨fun hU => hne (List.perm_nil.1 (hU ▸ hperm)), sk, hsk, fun x hx => ?_⟩
    exact hsubsub (hperm.symm.subset hx)

/-- **C10.** The aggregated subset-size table is antitone under set inclusion:
for canonical keys of `S ⊆ T` both present in the table, the count at `T`'s key
is at most the count at `S`'s key; moreover whenever `T`'s key is present,
every non-empty subset of `T` has its canonical key present as well. -/
theorem setSizes_antitone_downward_closed (qs : List Skill)
    (hnd : ∀ sk ∈ qs, sk.belongsTo.Nodup)
    (hwf : ∀ sk ∈ qs, ∀ c ∈ sk.belongsTo, WFId c) :
    (∀ S T : List String, S.Nodup → T.Nodup →
        (∀ c ∈ S, WFId c) → (∀ c ∈ T, WFId c) →
        hasKey (setSizes qs) (setKey S) = true →
        hasKey (setSizes qs) (setKey T) = true →
        S ⊆ T →
        getVal (setSizes qs) (setKey T) ≤ getVal (setSizes qs) (setKey S))
    ∧ (∀ T : List String, T.Nodup → (∀ c ∈ T, WFId c) →
        hasKey (setSizes qs) (setKey T) = true →
        ∀ S : List String, S ≠ [] → S.Nodup → S ⊆ T →
        hasKey (setSizes qs) (setKey S) = true) := by
  constructor
  · intro S T hSnd hTnd hwfS hwfT hkS hkT hST
    obtain ⟨hSne, -⟩ := hasKey_canonical qs hnd hwf hwfS hkS
    obtain ⟨hTne, -⟩ := hasKey_canonical qs hnd hwf hwfT hkT
    rw [getVal_setSizes_eq_countP qs hnd hwf S hSne hSnd hwfS,
      getVal_setSizes_eq_countP qs hnd hwf T hTne hTnd hwfT]
    apply List.countP_mono_left
    intro t _ ht
    simp only [decide_eq_true_eq] at ht ⊢
    exact fun x hx => ht (hST hx)
  · intro T hTnd hwfT hkT S hSne hSnd hST
    have hwfS : ∀ c ∈ S, WFId c := fun c hc => hwfT c (hST hc)
    obtain ⟨-, sk, hsk, hTsub⟩ := hasKey_canonical qs hnd hwf hwfT hkT
    apply hasKey_of_getVal_pos
    rw [getVal_setSizes_eq_countP qs hnd hwf S hSne hSnd hwfS]
    refine List.countP_pos_iff.2 ⟨sk, hsk, ?_⟩
    simp only [decide_eq_true_eq]
    exact fun x hx => hTsub (hST hx)

/-- Witness for C10: with the single skill `s ∈ {a, b}` the keys `"a"` and
`"a,b"` are both present, and the count at `"a,b"` is at most the one at
`"a"`; the key of `["a"] ⊆ ["a","b"]` is forced present. -/
theorem setSizes_antitone_downward_closed_witness :
    getVal (setSizes [Skill.mk "s" "S" ["a", "b"]]) (setKey ["a", "b"])
        ≤ getVal (setSizes [Skill.mk "s" "S" ["a", "b"]]) (setKey ["a"])
      ∧ hasKey (setSizes [Skill.mk "s" "S" ["a", "b"]]) (setKey ["a"]) = true := by
  have hnd : ∀ sk ∈ [Skill.mk "s" "S" ["a", "b"]], sk.belongsTo.Nodup := by
    intro sk hsk
    fin_cases hsk
    decide
  have hwf : ∀ sk ∈ [Skill.mk "s" "S" ["a", "b"]], ∀ c ∈ sk.belongsTo, WFId c := by
    intro sk hsk
    fin_cases hsk
    intro c hc
    fin_cases hc <;> exact ⟨by decide, by decide⟩
  have hk : hasKey (setSizes [Skill.mk "s" "S" ["a", "b"]]) (setKey ["a", "b"]) = true := by
    simp [setSizes, getSubsets, setKey, joinComma, List.insertionSort, List.orderedInsert,
      bump, setVal, updateVal, hasKey, getVal]
  have h := setSizes_antitone_downward_closed [Skill.mk "s" "S" ["a", "b"]] hnd hwf
  have hkA : hasKey (setSizes [Skill.mk "s" "S" ["a", "b"]]) (setKey ["a"]) = true :=
    h.2 ["a", "b"] (by decide) (by
      intro c hc
      fin_cases hc <;> exact ⟨by decide, by decide⟩) hk ["a"] (by decide) (by decide) (by decide)
  refine ⟨h.1 ["a"] ["a", "b"] (by decide) (by decide) ?_ ?_ hkA hk (by decide), hkA⟩
  · intro c hc
    fin_cases hc
    exact ⟨by decide, by decide⟩
  · intro c hc
    fin_cases hc <;> exact ⟨by decide, by decide⟩

/-! ## Area specifications for the Euler solver (`SkillChart.tsx` lines 156–167) -/

/-- `interface Area` of `d3-venn`: a subset of category ids and a requested size. -/
structure Area where
  sets : List String
  size : Nat
  deriving Repr, DecidableEq

/-- The check `a.sets.length === 1 && a.sets[0] === cat.id` (line 163). -/
def isSingletonOf (sets : List String) (id : String) : Bool :=
  sets.length == 1 && sets.headD "" == id

/-- Lines 156–159: `areas.push({ sets: key.split(','), size: size * 15 })` for
every entry of `setSizes`. -/
def baseAreas (skills : List Skill) : List Area :=
  (setSizes skills).map fun p => { sets := p.1.splitOn ",", size := p.2 * 15 }

/-- Lines 161–167: append a synthetic `{ sets: [cat.id], size: 5 }` for every
category that has no singleton entry yet. -/
def areasWithCategories (skills : List Skill) (categories : List Category) : List Area :=
  categories.foldl
    (fun areas cat =>
      if areas.any (fun a => isSingletonOf a.sets cat.id) then areas
      else areas ++ [{ sets := [cat.id], size := 5 }])
    (baseAreas skills)

theorem isSingletonOf_iff (sets : List String) (id : String) :
    isSingletonOf sets id = true ↔ sets = [id] := by
  cases sets with
  | nil => simp [isSingletonOf]
  | cons x t =>
    cases t with
    | nil => simp [isSingletonOf]
    | cons y t' => simp [isSingletonOf]

/-- Values stored in the subset-size table are at least 1. -/
theorem setSizes_values_pos_inner :
    ∀ (l : List (List String)) (m : List (String × Nat)),
    (∀ p ∈ m, 1 ≤ p.2) →
    ∀ p ∈ l.foldl (fun m subset => if subset.isEmpty then m else bump m (setKey subset)) m,
      1 ≤ p.2 := by
  intro l
  induction l with
  | nil => intro m hm; exact hm
  | cons s l ih =>
    intro m hm
    rw [List.foldl_cons]
    apply ih
    intro p hp
    by_cases hs : s.isEmpty
    · rw [if_pos hs] at hp
      exact hm p hp
    · rw [if_neg hs] at hp
      rcases mem_bump hp with h | h
      · rw [h]
        exact Nat.le_add_left 1 _
      · exact hm p h

theorem setSizes_values_pos (skills : List Skill) :
    ∀ p ∈ setSizes skills, 1 ≤ p.2 := by
  unfold setSizes
  generalize hm : ([] : List (String × Nat)) = m
  have hbase : ∀ p ∈ m, 1 ≤ p.2 := by rw [← hm]; intro p hp; simp at hp
  clear hm
  induction skills generalizing m with
  | nil => exact hbase
  | cons sk skills ih =>
    rw [List.foldl_cons]
    exact ih _ (setSizes_values_pos_inner _ m hbase)

theorem baseAreas_pos (skills : List Skill) : ∀ a ∈ baseAreas skills, 0 < a.size := by
  intro a ha
  obtain ⟨p, hp, rfl⟩ := List.mem_map.1 ha
  have := setSizes_values_pos skills p hp
  simp only []
  omega

/-- The category fold only ever appends entries. -/
theorem areasFold_mono : ∀ (cats : List Category) (m : List Area) (a : Area), a ∈ m →
    a ∈ cats.foldl
      (fun areas cat =>
        if areas.any (fun a => isSingletonOf a.sets cat.id) then areas
        else areas ++ [{ sets := [cat.id], size := 5 }]) m := by
  intro cats
  induction cats with
  | nil => intro m a ha; exact ha
  | cons cat cats ih =>
    intro m a ha
    rw [List.foldl_cons]
    apply ih
    by_cases hc : m.any (fun a => isSingletonOf a.sets cat.id)
    · rw [if_pos hc]; exact ha
    · rw [if_neg hc]; exact List.mem_append_left _ ha

theorem areasFold_singleton : ∀ (cats : List Category) (m : List Area),
    (∀ a ∈ m, 0 < a.size) →
    ∀ cat ∈ cats,
      ∃ a ∈ cats.foldl
        (fun areas cat =>
          if areas.any (fun a => isSingletonOf a.sets cat.id) then areas
          else areas ++ [{ sets := [cat.id], size := 5 }]) m,
        a.sets = [cat.id] ∧ 0 < a.size := by
  intro cats
  induction cats with
  | nil => intro m _ cat hcat; simp at hcat
  | cons cat₀ cats ih =>
    intro m hm cat hcat
    rw [List.foldl_cons]
    have hstep : ∀ a ∈ (if m.any (fun a => isSingletonOf a.sets cat₀.id) then m
        else m ++ [{ sets := [cat₀.id], size := 5 }]), 0 < a.size := by
      by_cases hc : m.any (fun a => isSingletonOf a.sets cat₀.id)
      · rw [if_pos hc]; exact hm
      · rw [if_neg hc]
        intro a ha
        rcases List.mem_append.1 ha with h | h
        · exact hm a h
        · rw [List.mem_singleton.1 h]
          show (0:ℕ) < 5
          norm_num
    rcases List.mem_cons.1 hcat with rfl | hcat'
    · by_cases hc : m.any (fun a => isSingletonOf a.sets cat.id)
      · obtain ⟨a, ha, hsa⟩ := List.any_eq_true.1 hc
        refine ⟨a, areasFold_mono cats _ a ?_, (isSingletonOf_iff _ _).1 hsa, hm a ha⟩
        rw [if_pos hc]
        exact ha
      · refine ⟨{ sets := [cat.id], size := 5 }, areasFold_mono cats _ _ ?_, rfl,
          show (0:ℕ) < 5 by norm_num⟩
        rw [if_neg hc]
        exact List.mem_append_right _ (List.mem_singleton_self _)
    · exact ih _ hstep cat hcat'

/-- Synthetic-entry clause: if the skill-derived areas have no singleton entry
for the category, the literal `{sets: [cat.id], size: 5}` ends up in the list. -/
theorem areasFold_synthetic : ∀ (cats : List Category) (m : List Area)
    (base : List Area),
    (∀ a ∈ m, a ∈ base ∨ ∃ x, a = Area.mk [x] 5) →
    ∀ cat ∈ cats, (¬ ∃ a ∈ base, isSingletonOf a.sets cat.id = true) →
      Area.mk [cat.id] 5 ∈ cats.foldl
        (fun areas cat =>
          if areas.any (fun a => isSingletonOf a.sets cat.id) then areas
          else areas ++ [{ sets := [cat.id], size := 5 }]) m := by
  intro cats
  induction cats with
  | nil => intro m base _ cat hcat; simp at hcat
  | cons cat₀ cats ih =>
    intro m base hinv cat hcat hnone
    rw [List.foldl_cons]
    have hstepinv : ∀ a ∈ (if m.any (fun a => isSingletonOf a.sets cat₀.id) then m
        else m ++ [{ sets := [cat₀.id], size := 5 }]),
        a ∈ base ∨ ∃ x, a = Area.mk [x] 5 := by
      by_cases hc : m.any (fun a => isSingletonOf a.sets cat₀.id)
      · rw [if_pos hc]; exact hinv
      · rw [if_neg hc]
        intro a ha
        rcases List.mem_append.1 ha with h | h
        · exact hinv a h
        · exact Or.inr ⟨cat₀.id, List.mem_singleton.1 h⟩
    rcases List.mem_cons.1 hcat with rfl | hcat'
    · by_cases hc : m.any (fun a => isSingletonOf a.sets cat.id)
      · obtain ⟨a, ha, hsa⟩ := List.any_eq_true.1 hc
        have hset : a.sets = [cat.id] := (isSingletonOf_iff _ _).1 hsa
        rcases hinv a ha with hbase | ⟨x, rfl⟩
        · exact absurd ⟨a, hbase, hsa⟩ hnone
        · have : x = cat.id := by simpa using hset
          subst this
          apply areasFold_mono
          rw [if_pos hc]
          exact ha
      · apply areasFold_mono
        rw [if_neg hc]
        exact List.mem_append_right _ (List.mem_singleton_self _)
    · exact ih _ base hstepinv cat hcat' hnone

/-- **C7.** Every category receives at least one singleton area entry of
strictly positive size, and when no skill-derived singleton entry exists for
it, the synthetic minimum-size entry `{sets: [cat.id], size: 5}` is present. -/
theorem every_category_has_area (skills : List Skill) (categories : List Category) :
    ∀ cat ∈ categories,
      (∃ a ∈ areasWithCategories skills categories, a.sets = [cat.id] ∧ 0 < a.size)
      ∧ ((¬ ∃ a ∈ baseAreas skills, isSingletonOf a.sets cat.id = true) →
          Area.mk [cat.id] 5 ∈ areasWithCategories skills categories) := by
  intro cat hcat
  constructor
  · exact areasFold_singleton categories (baseAreas skills) (baseAreas_pos skills) cat hcat
  · intro hnone
    exact areasFold_synthetic categories (baseAreas skills) (baseAreas skills)
      (fun a ha => Or.inl ha) cat hcat hnone

/-- Witness for C7 at a concrete input: with no skills at all, the lone
category `c` gets the synthetic area `{sets: ["c"], size: 5}`. -/
theorem every_category_has_area_witness :
    (∃ a ∈ areasWithCategories [] [Category.mk "c" "C"], a.sets = ["c"] ∧ 0 < a.size)
      ∧ Area.mk ["c"] 5 ∈ areasWithCategories [] [Category.mk "c" "C"] := by
  have h := every_category_has_area [] [Category.mk "c" "C"]
    (Category.mk "c" "C") (List.mem_singleton_self _)
  exact ⟨h.1, h.2 (by simp [baseAreas, setSizes])⟩

/-! ## Cluster anchor resolution (`SkillChart.tsx` lines 226–254)

The geometric solver's outputs (`computeTextCentres` and the scaled circle
solution) are external interfaces, modelled as partial maps from keys to
points/circles. -/

/-- A 2-D point, over `ℚ` (this code path only adds and divides). -/
structure Pt where
  x : ℚ
  y : ℚ
  deriving Repr, DecidableEq

/-- A circle of the scaled Euler solution. -/
structure VennCircleQ where
  x : ℚ
  y : ℚ
  radius : ℚ
  deriving Repr, DecidableEq

/-- Lines 227–244: take the solver centroid for the exact key when present;
otherwise average the centers of the constituent category circles present in
the scaled solution; otherwise use the viewport center.  Total by
construction — this is the "never throw" fallback chain. -/
def resolveAnchor (centres : String → Option Pt) (scaledSolution : String → Option VennCircleQ)
    (belongsTo : List String) (width height : ℚ) : Pt :=
  match centres (setKey belongsTo) with
  | some c => c
  | none =>
    let acc := belongsTo.foldl
      (fun (acc : ℚ × ℚ × ℕ) catId =>
        match scaledSolution catId with
        | some circle => (acc.1 + circle.x, acc.2.1 + circle.y, acc.2.2 + 1)
        | none => acc)
      (0, 0, 0)
    if 0 < acc.2.2 then { x := acc.1 / (acc.2.2 : ℚ), y := acc.2.1 / (acc.2.2 : ℚ) }
    else { x := width / 2, y := height / 2 }

theorem anchor_fold_spec (scaled : String → Option VennCircleQ) :
    ∀ (l : List String) (a b : ℚ) (n : ℕ),
    l.foldl
      (fun (acc : ℚ × ℚ × ℕ) catId =>
        match scaled catId with
        | some circle => (acc.1 + circle.x, acc.2.1 + circle.y, acc.2.2 + 1)
        | none => acc)
      (a, b, n)
    = (a + ((l.filterMap scaled).map VennCircleQ.x).sum,
       b + ((l.filterMap scaled).map VennCircleQ.y).sum,
       n + (l.filterMap scaled).length) := by
  intro l
  induction l with
  | nil => intro a b n; simp
  | cons c l ih =>
    intro a b n
    rw [List.foldl_cons]
    cases hc : scaled c with
    | none =>
      simp only [List.filterMap_cons, hc]
      exact ih a b n
    | some circle =>
      simp only [List.filterMap_cons, hc, List.map_cons, List.sum_cons, List.length_cons]
      rw [ih]
      refine Prod.ext ?_ (Prod.ext ?_ ?_) <;> simp <;> try ring

/-- **C3.** The anchor resolver follows the deterministic three-step fallback
and is total: (i) the solver centroid for the exact key when it exists;
(ii) otherwise the arithmetic mean of the centers of the combination's
constituent category circles present in the scaled solution; (iii) otherwise
the viewport center `(width/2, height/2)`. -/
theorem anchor_resolver_spec (centres : String → Option Pt)
    (scaled : String → Option VennCircleQ) (belongsTo : List String) (width height : ℚ) :
    (∀ c, centres (setKey belongsTo) = some c →
        resolveAnchor centres scaled belongsTo width height = c)
    ∧ (centres (setKey belongsTo) = none → belongsTo.filterMap scaled ≠ [] →
        resolveAnchor centres scaled belongsTo width height =
          { x := ((belongsTo.filterMap scaled).map VennCircleQ.x).sum
                    / ((belongsTo.filterMap scaled).length : ℚ),
            y := ((belongsTo.filterMap scaled).map VennCircleQ.y).sum
                    / ((belongsTo.filterMap scaled).length : ℚ) })
    ∧ (centres (setKey belongsTo) = none → belongsTo.filterMap scaled = [] →
        resolveAnchor centres scaled belongsTo width height =
          { x := width / 2, y := height / 2 }) := by
  refine ⟨?_, ?_, ?_⟩
  · intro c hc
    unfold resolveAnchor
    rw [hc]
  · intro hc hne
    unfold resolveAnchor
    rw [hc]
    simp only [anchor_fold_spec scaled belongsTo 0 0 0, Rat.zero_add, Nat.zero_add]
    rw [if_pos (List.length_pos.2 hne)]
  · intro hc hnil
    unfold resolveAnchor
    rw [hc]
    simp only [anchor_fold_spec scaled belongsTo 0 0 0, hnil]
    simp

/-- Witness for C3: with no centroid for the key and only category `"a"`
present in the scaled solution at center `(1, 2)`, the anchor is `(1, 2)`;
with nothing present at all it is the viewport center `(50, 25)`. -/
theorem anchor_resolver_spec_witness :
    resolveAnchor (fun _ => none)
        (fun k => if k = "a" then some (VennCircleQ.mk 1 2 3) else none)
        ["a", "b"] 100 50 = Pt.mk 1 2
    ∧ resolveAnchor (fun _ => none) (fun _ => none) ["a", "b"] 100 50 = Pt.mk 50 25 := by
  constructor
  · have h := (anchor_resolver_spec (fun _ => none)
      (fun k => if k = "a" then some (VennCircleQ.mk 1 2 3) else none) ["a", "b"] 100 50).2.1
      rfl (by simp [List.filterMap_cons])
    rw [h]
    simp [List.filterMap_cons]
  · have h := (anchor_resolver_spec (fun _ => none) (fun _ => none) ["a", "b"] 100 50).2.2
      rfl (by simp [List.filterMap_cons])
    rw [h]
    norm_num

/-! ## Skill node construction (`SkillChart.tsx` lines 176–273) -/

/-- `interface PersonNode`: one entry per (member, skill) pairing. -/
structure PersonNode where
  id : String
  name : String
  role : String
  proficiency : String
  r : ℚ
  deriving Repr, DecidableEq

/-- Lines 178–190: the people having this skill, in member-list order
(`forEach` + `find` + push). -/
def peopleInSkill (memberList : List Member) (skill : Skill) : List PersonNode :=
  memberList.filterMap fun member =>
    match member.skills.find? (fun s => s.skillId == skill.id) with
    | some ms => some { id := member.id, name := member.name, role := member.role,
                        proficiency := ms.proficiency, r := 4 }
    | none => none

/-- Lines 192–197 (dots variant): `Math.max(18, Math.sqrt(n) * 8 + 5)`. -/
noncomputable def calcRadiusDots (n : ℕ) : ℝ := max 18 (Real.sqrt n * 8 + 5)

/-- A constructed skill node (before simulation).  The position is the owning
group's center plus the random jitter `(Math.random() - 0.5) * 50`, modelled by
the oracle `jitter` (one pair per skill index). -/
structure SkillNodeB where
  id : String
  name : String
  categories : List String
  people : List PersonNode
  r : ℝ
  groupId : String
  x : ℚ
  y : ℚ

/-- The center a combination key's group node is created with: the resolved
anchor of the first qualifying skill carrying that key (line 227–253; the
center fields are never written again afterwards, only `r` is). -/
def groupCenter (centres : String → Option Pt) (scaled : String → Option VennCircleQ)
    (width height : ℚ) (qs : List Skill) (key : String) : Pt :=
  match qs.find? (fun sk => setKey sk.belongsTo == key) with
  | some sk => resolveAnchor centres scaled sk.belongsTo width height
  | none => { x := 0, y := 0 }

/-- Lines 176–273: one node per filtered skill, with its people, its radius,
its combination key and a jittered start position at its group's center. -/
noncomputable def skillNodes (centres : String → Option Pt)
    (scaled : String → Option VennCircleQ) (width height : ℚ) (jitter : ℕ → ℚ × ℚ)
    (skillListRaw : List Skill) (memberList : List Member) : List SkillNodeB :=
  let qs := skillList skillListRaw memberList
  qs.enum.map fun p =>
    let skill := p.2
    let people := peopleInSkill memberList skill
    let key := setKey skill.belongsTo
    let c := groupCenter centres scaled width height qs key
    { id := skill.id, name := skill.name, categories := skill.belongsTo,
      people := people, r := calcRadiusDots people.length, groupId := key,
      x := c.x + (jitter p.1).1, y := c.y + (jitter p.1).2 }

/-- **C6.** A skill appears as a `SkillNode` iff some member lists its id, and
a dataset in which no member has any skill yields no skill nodes at all (the
construction is total, so it cannot raise). -/
theorem skillNodes_membership (centres : String → Option Pt)
    (scaled : String → Option VennCircleQ) (width height : ℚ) (jitter : ℕ → ℚ × ℚ)
    (skillListRaw : List Skill) (memberList : List Member) :
    (∀ sid : String,
      (∃ n ∈ skillNodes centres scaled width height jitter skillListRaw memberList,
          n.id = sid)
        ↔ ∃ sk ∈ skillListRaw, sk.id = sid
            ∧ ∃ m ∈ memberList, ∃ ms ∈ m.skills, ms.skillId = sk.id)
    ∧ ((∀ m ∈ memberList, m.skills = []) →
        skillNodes centres scaled width height jitter skillListRaw memberList = []) := by
  constructor
  · intro sid
    unfold skillNodes
    simp only [List.mem_map]
    constructor
    · rintro ⟨n, ⟨p, hp, rfl⟩, hid⟩
      have hsk : p.2 ∈ skillList skillListRaw memberList := by
        have := List.enum_map_snd (skillList skillListRaw memberList)
        rw [← this]
        exact List.mem_map.2 ⟨p, hp, rfl⟩
      unfold skillList at hsk
      rw [List.mem_filter] at hsk
      refine ⟨p.2, hsk.1, hid, ?_⟩
      obtain ⟨m, hm, hms⟩ := List.any_eq_true.1 hsk.2
      obtain ⟨ms, hmsmem, hmatch⟩ := List.any_eq_true.1 hms
      exact ⟨m, hm, ms, hmsmem, by rw [beq_iff_eq.1 hmatch]⟩
    · rintro ⟨sk, hsk, hid, m, hm, ms, hmsmem, hmatch⟩
      have hq : sk ∈ skillList skillListRaw memberList := by
        unfold skillList
        rw [List.mem_filter]
        exact ⟨hsk, List.any_eq_true.2 ⟨m, hm,
          List.any_eq_true.2 ⟨ms, hmsmem, beq_iff_eq.2 hmatch⟩⟩⟩
      have : sk ∈ (skillList skillListRaw memberList).enum.map Prod.snd := by
        rw [List.enum_map_snd]
        exact hq
      obtain ⟨p, hp, hpsnd⟩ := List.mem_map.1 this
      exact ⟨_, ⟨p, hp, rfl⟩, by rw [hpsnd, hid]⟩
  · intro hempty
    unfold skillNodes
    have : skillList skillListRaw memberList = [] := by
      unfold skillList
      rw [List.filter_eq_nil_iff]
      intro sk _
      simp only [List.any_eq_true, not_exists]
      rintro m ⟨hm, hms⟩
      rw [hempty m hm] at hms
      simp at hms
    rw [this]
    rfl

/-- Witness for C6: a dataset with one skill and one member who has no skills
produces no skill nodes. -/
theorem skillNodes_membership_witness :
    skillNodes (fun _ => none) (fun _ => none) 100 50 (fun _ => (0, 0))
      [Skill.mk "s" "S" ["a"]] [Member.mk "m" "M" "dev" []] = [] :=
  (skillNodes_membership (fun _ => none) (fun _ => none) 100 50 (fun _ => (0, 0))
    [Skill.mk "s" "S" ["a"]] [Member.mk "m" "M" "dev" []]).2
    (by intro m hm; fin_cases hm; rfl)

/-! ## Group (cluster) nodes and the radius accumulation
(`SkillChart.tsx` lines 226–261 and 276–279) -/

/-- `interface GroupNode`: center fields over `ℚ` (rational arithmetic only),
radius over `ℝ` (updated through `Math.sqrt`). -/
structure GroupNode where
  id : String
  x : ℚ
  y : ℚ
  targetX : ℚ
  targetY : ℚ
  r : ℝ

def hasKeyG : List (String × GroupNode) → String → Bool
  | [], _ => false
  | p :: rest, k => p.1 == k || hasKeyG rest k

/-- Lines 226–254: create the group node (radius `0`, centered at the resolved
anchor) when its key is not yet in the map. -/
def ensureGroup (centres : String → Option Pt) (scaled : String → Option VennCircleQ)
    (width height : ℚ) (m : List (String × GroupNode)) (skill : Skill) :
    List (String × GroupNode) :=
  let key := setKey skill.belongsTo
  if hasKeyG m key then m
  else
    let center := resolveAnchor centres scaled skill.belongsTo width height
    m ++ [(key, { id := key, x := center.x, y := center.y,
                  targetX := center.x, targetY := center.y, r := 0 })]

/-- Lines 256–261: `group.r = Math.sqrt(group.r * group.r + calculatedRadius *
calculatedRadius)`. -/
noncomputable def addGroupArea (m : List (String × GroupNode)) (key : String) (c : ℝ) :
    List (String × GroupNode) :=
  m.map fun p =>
    if p.1 = key then (p.1, { p.2 with r := Real.sqrt (p.2.r * p.2.r + c * c) }) else p

noncomputable def groupStep (centres : String → Option Pt)
    (scaled : String → Option VennCircleQ) (width height : ℚ) (memberList : List Member)
    (m : List (String × GroupNode)) (skill : Skill) : List (String × GroupNode) :=
  addGroupArea (ensureGroup centres scaled width height m skill) (setKey skill.belongsTo)
    (calcRadiusDots (peopleInSkill memberList skill).length)

/-- The `groupNodesMap` after the pass over the filtered skill list. -/
noncomputable def groupNodesMapOf (centres : String → Option Pt)
    (scaled : String → Option VennCircleQ) (width height : ℚ) (memberList : List Member)
    (qs : List Skill) : List (String × GroupNode) :=
  qs.foldl (groupStep centres scaled width height memberList) []

/-- Lines 276–279: finalize each group radius with the fixed padding `+ 20`. -/
noncomputable def groupNodesOf (centres : String → Option Pt)
    (scaled : String → Option VennCircleQ) (width height : ℚ) (memberList : List Member)
    (qs : List Skill) : List (String × GroupNode) :=
  (groupNodesMapOf centres scaled width height memberList qs).map
    fun p => (p.1, { p.2 with r := p.2.r + 20 })

/-- Σ of squared calculated radii over the skills sharing a combination key. -/
noncomputable def sumRadSq (memberList : List Member) (qs : List Skill) (key : String) : ℝ :=
  ((qs.filter fun sk => setKey sk.belongsTo == key).map fun sk =>
    calcRadiusDots (peopleInSkill memberList sk).length
      * calcRadiusDots (peopleInSkill memberList sk).length).sum

theorem sumRadSq_nonneg (memberList : List Member) (qs : List Skill) (key : String) :
    0 ≤ sumRadSq memberList qs key := by
  apply List.sum_nonneg
  intro x hx
  obtain ⟨sk, -, rfl⟩ := List.mem_map.1 hx
  exact mul_self_nonneg _

theorem sumRadSq_cons (memberList : List Member) (sk : Skill) (qs : List Skill) (key : String) :
    sumRadSq memberList (sk :: qs) key
      = (if setKey sk.belongsTo == key then
          calcRadiusDots (peopleInSkill memberList sk).length
            * calcRadiusDots (peopleInSkill memberList sk).length else 0)
        + sumRadSq memberList qs key := by
  unfold sumRadSq
  rw [List.filter_cons]
  by_cases h : (setKey sk.belongsTo == key) = true
  · rw [if_pos h, if_pos h, List.map_cons, List.sum_cons]
  · rw [if_neg h, if_neg h]
    simp

theorem hasKeyG_addGroupArea : ∀ (m : List (String × GroupNode)) (key : String) (c : ℝ)
    (k : String), hasKeyG (addGroupArea m key c) k = hasKeyG m k := by
  intro m
  induction m with
  | nil => intro _ _ _; rfl
  | cons p rest ih =>
    intro key c k
    by_cases hp : p.1 = key
    · simp only [addGroupArea, List.map_cons, if_pos hp, hasKeyG, hp]
      rw [← ih key c k]
      rfl
    · simp only [addGroupArea, List.map_cons, if_neg hp, hasKeyG]
      rw [← ih key c k]
      rfl

theorem hasKeyG_ensureGroup_false {centres : String → Option Pt}
    {scaled : String → Option VennCircleQ} {width height : ℚ}
    {m : List (String × GroupNode)} {skill : Skill} {k : String}
    (h : hasKeyG (ensureGroup centres scaled width height m skill) k = false) :
    hasKeyG m k = false ∧ k ≠ setKey skill.belongsTo := by
  unfold ensureGroup at h
  by_cases hc : hasKeyG m (setKey skill.belongsTo)
  · rw [if_pos hc] at h
    refine ⟨h, fun hk => ?_⟩
    rw [hk] at h
    rw [h] at hc
    exact Bool.false_ne_true hc
  · rw [if_neg hc] at h
    have happ : ∀ (m' : List (String × GroupNode)) (q : String × GroupNode) (k : String),
        hasKeyG (m' ++ [q]) k = (hasKeyG m' k || q.1 == k) := by
      intro m'
      induction m' with
      | nil => intro q k; simp [hasKeyG]
      | cons p rest ih =>
        intro q k
        simp only [List.cons_append, hasKeyG, List.append_eq, ih, Bool.or_assoc]
    rw [happ] at h
    rcases Bool.or_eq_false_iff.1 h with ⟨h1, h2⟩
    exact ⟨h1, fun hk => by simp [hk] at h2⟩

theorem mem_ensureGroup {centres : String → Option Pt}
    {scaled : String → Option VennCircleQ} {width height : ℚ}
    {m : List (String × GroupNode)} {skill : Skill} {p : String × GroupNode}
    (h : p ∈ ensureGroup centres scaled width height m skill) :
    p ∈ m ∨ (hasKeyG m (setKey skill.belongsTo) = false
      ∧ p.1 = setKey skill.belongsTo ∧ p.2.r = 0) := by
  unfold ensureGroup at h
  by_cases hc : hasKeyG m (setKey skill.belongsTo)
  · rw [if_pos hc] at h
    exact Or.inl h
  · rw [if_neg hc] at h
    rcases List.mem_append.1 h with h' | h'
    · exact Or.inl h'
    · right
      rw [List.mem_singleton.1 h']
      exact ⟨by simpa using hc, rfl, rfl⟩

/-- Radius invariant carried through the fold over the skill list. -/
theorem groupFold_radius (centres : String → Option Pt)
    (scaled : String → Option VennCircleQ) (width height : ℚ) (memberList : List Member) :
    ∀ (rest : List Skill) (m : List (String × GroupNode)) (f : String → ℝ),
    (∀ k, 0 ≤ f k) →
    (∀ p ∈ m, p.2.r = Real.sqrt (f p.1)) →
    (∀ k, hasKeyG m k = false → f k = 0) →
    ∀ p ∈ rest.foldl (groupStep centres scaled width height memberList) m,
      p.2.r = Real.sqrt (f p.1 + sumRadSq memberList rest p.1) := by
  intro rest
  induction rest with
  | nil =>
    intro m f _ h1 _ p hp
    have : sumRadSq memberList [] p.1 = 0 := by simp [sumRadSq]
    rw [this, add_zero]
    exact h1 p hp
  | cons sk rest ih =>
    intro m f h0 h1 h2 p hp
    rw [List.foldl_cons] at hp
    set key := setKey sk.belongsTo with hkey
    set c := calcRadiusDots (peopleInSkill memberList sk).length with hc
    have hstep := ih (groupStep centres scaled width height memberList m sk)
      (fun k => f k + if key == k then c * c else 0)
      (fun k => by
        have := h0 k
        show 0 ≤ f k + if (key == k) = true then c * c else 0
        by_cases h : (key == k) = true
        · rw [if_pos h]
          have := mul_self_nonneg c
          linarith
        · rw [if_neg h]
          linarith)
      (fun q hq => by
        unfold groupStep at hq
        obtain ⟨q', hq', hqeq⟩ := List.mem_map.1 hq
        rcases mem_ensureGroup hq' with hq'' | ⟨hfresh, hq1, hq2⟩
        · by_cases hqk : q'.1 = key
          · rw [if_pos hqk] at hqeq
            rw [← hqeq]
            show Real.sqrt (q'.2.r * q'.2.r + c * c)
              = Real.sqrt (f q'.1 + if (key == q'.1) then c * c else 0)
            rw [hqk, show ((key == key) = true) by simp, if_pos rfl]
            congr 1
            rw [h1 q' hq'', hqk, Real.mul_self_sqrt (h0 key)]
          · rw [if_neg hqk] at hqeq
            rw [← hqeq, h1 q' hq'']
            have hne : (key == q'.1) = false := by
              simp only [beq_eq_false_iff_ne]
              exact fun hh => hqk hh.symm
            show Real.sqrt (f q'.1)
              = Real.sqrt (f q'.1 + if (key == q'.1) = true then c * c else 0)
            rw [hne]
            simp
        · by_cases hqk : q'.1 = key
          · rw [if_pos hqk] at hqeq
            rw [← hqeq]
            show Real.sqrt (q'.2.r * q'.2.r + c * c)
              = Real.sqrt (f q'.1 + if (key == q'.1) then c * c else 0)
            rw [hqk, show ((key == key) = true) by simp, if_pos rfl]
            rw [hq2, h2 key hfresh]
            norm_num
          · exact absurd hq1 hqk)
      (fun k hk => by
        unfold groupStep at hk
        rw [hasKeyG_addGroupArea] at hk
        obtain ⟨hmk, hne⟩ := hasKeyG_ensureGroup_false hk
        show f k + (if (key == k) = true then c * c else 0) = 0
        rw [h2 k hmk]
        have : (key == k) = false := by
          simp only [beq_eq_false_iff_ne]
          exact fun hh => hne hh.symm
        rw [this]
        simp)
      p hp
    rw [hstep, sumRadSq_cons]
    congr 1
    ring

/-- Σ of squared radii over the *constructed skill nodes* carrying a key. -/
noncomputable def nodeRadSqSum (nodes : List SkillNodeB) (key : String) : ℝ :=
  ((nodes.filter fun n => n.groupId == key).map fun n => n.r * n.r).sum

theorem enumFrom_filter_map {α β : Type _} (q : α → Bool) (g : α → β) :
    ∀ (l : List α) (i : ℕ),
    (((l.enumFrom i).filter fun p => q p.2).map fun p => g p.2) = (l.filter q).map g := by
  intro l
  induction l with
  | nil => intro _; rfl
  | cons a l ih =>
    intro i
    show ((((i, a) :: l.enumFrom (i + 1)).filter fun p => q p.2).map fun p => g p.2) = _
    rw [List.filter_cons, List.filter_cons]
    by_cases h : q a
    · rw [if_pos h, if_pos h, List.map_cons, ih, List.map_cons]
    · rw [if_neg h, if_neg h, ih]

theorem nodeRadSqSum_eq_sumRadSq (centres : String → Option Pt)
    (scaled : String → Option VennCircleQ) (width height : ℚ) (jitter : ℕ → ℚ × ℚ)
    (skillListRaw : List Skill) (memberList : List Member) (key : String) :
    nodeRadSqSum (skillNodes centres scaled width height jitter skillListRaw memberList) key
      = sumRadSq memberList (skillList skillListRaw memberList) key := by
  unfold nodeRadSqSum skillNodes sumRadSq
  rw [List.filter_map, List.map_map]
  congr 1
  have := enumFrom_filter_map
    (fun sk : Skill => setKey sk.belongsTo == key)
    (fun sk : Skill => calcRadiusDots (peopleInSkill memberList sk).length
      * calcRadiusDots (peopleInSkill memberList sk).length)
    (skillList skillListRaw memberList) 0
  exact this

/-- **C4.** Every finalized cluster node's radius is the square root of the sum
of the squared radii of the skill nodes sharing its combination key, plus the
fixed padding `20` added exactly once. -/
theorem cluster_radius_invariant (centres : String → Option Pt)
    (scaled : String → Option VennCircleQ) (width height : ℚ) (jitter : ℕ → ℚ × ℚ)
    (skillListRaw : List Skill) (memberList : List Member) :
    ∀ p ∈ groupNodesOf centres scaled width height memberList
        (skillList skillListRaw memberList),
      p.2.r = Real.sqrt
          (nodeRadSqSum (skillNodes centres scaled width height jitter skillListRaw memberList)
            p.1) + 20 := by
  intro p hp
  obtain ⟨q, hq, rfl⟩ := List.mem_map.1 hp
  have h := groupFold_radius centres scaled width height memberList
    (skillList skillListRaw memberList) [] (fun _ => 0) (fun _ => le_refl 0)
    (by intro r hr; simp at hr) (fun _ _ => rfl) q hq
  show q.2.r + 20 = _
  rw [h, nodeRadSqSum_eq_sumRadSq centres scaled width height jitter]
  norm_num

/-- Witness for C4: one skill in category `a` with one member; its calculated
radius is `calcRadiusDots 1` and the single cluster's finalized radius is
`√(0·0 + calcRadiusDots 1 · calcRadiusDots 1) + 20 = √(Σ r²) + 20`. -/
theorem cluster_radius_invariant_witness :
    ((("a",
        { id := "a", x := 50, y := 25, targetX := 50, targetY := 25,
          r := Real.sqrt (0 * 0 + calcRadiusDots 1 * calcRadiusDots 1) + 20 }) :
        String × GroupNode)
      ∈ groupNodesOf (fun _ => none) (fun _ => none) 100 50
          [Member.mk "m" "M" "dev" [MemberSkill.mk "s" "expert"]]
          (skillList [Skill.mk "s" "S" ["a"]]
            [Member.mk "m" "M" "dev" [MemberSkill.mk "s" "expert"]]))
    ∧ Real.sqrt (0 * 0 + calcRadiusDots 1 * calcRadiusDots 1) + 20
      = Real.sqrt
          (nodeRadSqSum (skillNodes (fun _ => none) (fun _ => none) 100 50 (fun _ => (0, 0))
            [Skill.mk "s" "S" ["a"]]
            [Member.mk "m" "M" "dev" [MemberSkill.mk "s" "expert"]]) "a") + 20 := by
  have hmem : ((("a",
      { id := "a", x := 50, y := 25, targetX := 50, targetY := 25,
        r := Real.sqrt (0 * 0 + calcRadiusDots 1 * calcRadiusDots 1) + 20 }) :
      String × GroupNode)
    ∈ groupNodesOf (fun _ => none) (fun _ => none) 100 50
        [Member.mk "m" "M" "dev" [MemberSkill.mk "s" "expert"]]
        (skillList [Skill.mk "s" "S" ["a"]]
          [Member.mk "m" "M" "dev" [MemberSkill.mk "s" "expert"]])) := by
    simp [groupNodesOf, groupNodesMapOf, groupStep, addGroupArea, ensureGroup, hasKeyG,
      resolveAnchor, setKey, joinComma, List.insertionSort, List.orderedInsert,
      peopleInSkill, skillList]
    norm_num
  refine ⟨hmem, ?_⟩
  exact cluster_radius_invariant (fun _ => none) (fun _ => none) 100 50 (fun _ => (0, 0))
    [Skill.mk "s" "S" ["a"]] [Member.mk "m" "M" "dev" [MemberSkill.mk "s" "expert"]]
    _ hmem

/-! ## The two custom per-tick forces (`SkillChart.tsx` lines 387–426,
pie variant lines 417–457)

Simulation space is `ℝ`; a JS in-place mutation of `d.vx`/`d.vy` is modelled
as a record update. -/

/-- A category circle of the scaled Euler solution, in simulation space. -/
structure VennCircle where
  x : ℝ
  y : ℝ
  radius : ℝ

/-- A skill node during simulation. -/
structure SimNode where
  id : String
  name : String
  categories : List String
  people : List PersonNode
  groupId : String
  r : ℝ
  x : ℝ
  y : ℝ
  vx : ℝ
  vy : ℝ

/-- A group node as read by the clump force (only `id`, `x`, `y` are read). -/
structure SimGroup where
  id : String
  x : ℝ
  y : ℝ

/-- The whole mutable simulation state the tick callback can see. -/
structure SimState where
  nodes : List SimNode
  groups : List SimGroup
  circles : List (String × VennCircle)

/-- One node's update in `forceClumpToGroup`: find the owning group, then
`d.vx += (group.x - d.x) * k` with `k = gain * alpha` (gain `0.05` in the dots
variant, `0.1` in the pie variant). -/
def clumpStep (gain : ℝ) (groups : List SimGroup) (alpha : ℝ) (d : SimNode) : SimNode :=
  match groups.find? (fun g => g.id == d.groupId) with
  | some group =>
    let k := gain * alpha
    { d with vx := d.vx + (group.x - d.x) * k, vy := d.vy + (group.y - d.y) * k }
  | none => d

/-- One (node, circle) interaction of `forceBoundary`: members outside their
region are pulled in with gain `inGain`, non-members inside a foreign region
are pushed out with gain `outGain`. -/
noncomputable def boundaryStep (inGain outGain alpha : ℝ) (catId : String)
    (circle : VennCircle) (d : SimNode) : SimNode :=
  let dx := d.x - circle.x
  let dy := d.y - circle.y
  let dist := Real.sqrt (dx * dx + dy * dy)
  if d.categories.contains catId then
    if dist > circle.radius - d.r then
      let k := (dist - (circle.radius - d.r)) * inGain * alpha
      { d with vx := d.vx - dx / dist * k, vy := d.vy - dy / dist * k }
    else d
  else
    if dist < circle.radius + d.r then
      let k := (circle.radius + d.r - dist) * outGain * alpha
      { d with vx := d.vx + dx / dist * k, vy := d.vy + dy / dist * k }
    else d

/-- `forceClumpToGroup` of the dots variant (gain `0.05`, lines 387–397). -/
def forceClumpToGroupDots (groups : List SimGroup) (nodes : List SimNode)
    (alpha : ℝ) : List SimNode :=
  nodes.map (clumpStep 0.05 groups alpha)

/-- `forceClumpToGroup` of the pie variant (gain `0.1`, lines 417–428). -/
def forceClumpToGroupPie (groups : List SimGroup) (nodes : List SimNode)
    (alpha : ℝ) : List SimNode :=
  nodes.map (clumpStep 0.1 groups alpha)

/-- `forceBoundary` of the dots variant: inward gain `5`, outward gain `0.8`
(lines 400–426). -/
noncomputable def forceBoundaryDots (circles : List (String × VennCircle))
    (nodes : List SimNode) (alpha : ℝ) : List SimNode :=
  nodes.map fun d => circles.foldl (fun d p => boundaryStep 5 0.8 alpha p.1 p.2 d) d

/-- `forceBoundary` of the pie variant: inward gain `0.1`, outward gain `0.8`
(lines 431–457). -/
noncomputable def forceBoundaryPie (circles : List (String × VennCircle))
    (nodes : List SimNode) (alpha : ℝ) : List SimNode :=
  nodes.map fun d => circles.foldl (fun d p => boundaryStep 0.1 0.8 alpha p.1 p.2 d) d

/-- The four forces as state transformers: they write `state.nodes` only. -/
def applyClumpDots (s : SimState) (alpha : ℝ) : SimState :=
  { s with nodes := forceClumpToGroupDots s.groups s.nodes alpha }

def applyClumpPie (s : SimState) (alpha : ℝ) : SimState :=
  { s with nodes := forceClumpToGroupPie s.groups s.nodes alpha }

noncomputable def applyBoundaryDots (s : SimState) (alpha : ℝ) : SimState :=
  { s with nodes := forceBoundaryDots s.circles s.nodes alpha }

noncomputable def applyBoundaryPie (s : SimState) (alpha : ℝ) : SimState :=
  { s with nodes := forceBoundaryPie s.circles s.nodes alpha }

/-- Everything of a skill node except its velocity. -/
def frameProj (d : SimNode) :
    String × String × List String × List PersonNode × String × ℝ × ℝ × ℝ :=
  (d.id, d.name, d.categories, d.people, d.groupId, d.r, d.x, d.y)

theorem frameProj_clumpStep (gain : ℝ) (groups : List SimGroup) (alpha : ℝ) (d : SimNode) :
    frameProj (clumpStep gain groups alpha d) = frameProj d := by
  unfold clumpStep
  cases groups.find? (fun g => g.id == d.groupId) <;> rfl

theorem frameProj_boundaryStep (inGain outGain alpha : ℝ) (catId : String)
    (circle : VennCircle) (d : SimNode) :
    frameProj (boundaryStep inGain outGain alpha catId circle d) = frameProj d := by
  unfold boundaryStep
  split
  · dsimp only
    split <;> rfl
  · dsimp only
    split <;> rfl

theorem frameProj_boundaryFold (inGain outGain alpha : ℝ) :
    ∀ (circles : List (String × VennCircle)) (d : SimNode),
    frameProj (circles.foldl (fun d p => boundaryStep inGain outGain alpha p.1 p.2 d) d)
      = frameProj d := by
  intro circles
  induction circles with
  | nil => intro d; rfl
  | cons c circles ih =>
    intro d
    rw [List.foldl_cons, ih, frameProj_boundaryStep]

/-- **C9.** A single application of either custom force (in either chart
variant) writes only the velocity fields of the skill nodes: every other skill
node field — position, radius, categories, people, identifiers — is unchanged,
and the group nodes and category circles of the state are untouched. -/
theorem forces_write_only_velocity (s : SimState) (alpha : ℝ) :
    ((applyClumpDots s alpha).nodes.map frameProj = s.nodes.map frameProj
      ∧ (applyClumpDots s alpha).groups = s.groups
      ∧ (applyClumpDots s alpha).circles = s.circles)
    ∧ ((applyClumpPie s alpha).nodes.map frameProj = s.nodes.map frameProj
      ∧ (applyClumpPie s alpha).groups = s.groups
      ∧ (applyClumpPie s alpha).circles = s.circles)
    ∧ ((applyBoundaryDots s alpha).nodes.map frameProj = s.nodes.map frameProj
      ∧ (applyBoundaryDots s alpha).groups = s.groups
      ∧ (applyBoundaryDots s alpha).circles = s.circles)
    ∧ ((applyBoundaryPie s alpha).nodes.map frameProj = s.nodes.map frameProj
      ∧ (applyBoundaryPie s alpha).groups = s.groups
      ∧ (applyBoundaryPie s alpha).circles = s.circles) := by
  refine ⟨⟨?_, rfl, rfl⟩, ⟨?_, rfl, rfl⟩, ⟨?_, rfl, rfl⟩, ⟨?_, rfl, rfl⟩⟩
  · show (s.nodes.map (clumpStep 0.05 s.groups alpha)).map frameProj = _
    rw [List.map_map]
    exact List.map_congr_left fun d _ => frameProj_clumpStep 0.05 s.groups alpha d
  · show (s.nodes.map (clumpStep 0.1 s.groups alpha)).map frameProj = _
    rw [List.map_map]
    exact List.map_congr_left fun d _ => frameProj_clumpStep 0.1 s.groups alpha d
  · show ((s.nodes.map fun d =>
        s.circles.foldl (fun d p => boundaryStep 5 0.8 alpha p.1 p.2 d) d).map frameProj) = _
    rw [List.map_map]
    exact List.map_congr_left fun d _ => frameProj_boundaryFold 5 0.8 alpha s.circles d
  · show ((s.nodes.map fun d =>
        s.circles.foldl (fun d p => boundaryStep 0.1 0.8 alpha p.1 p.2 d) d).map frameProj) = _
    rw [List.map_map]
    exact List.map_congr_left fun d _ => frameProj_boundaryFold 0.1 0.8 alpha s.circles d

/-! ### Magnitude of the boundary corrections (claim C1) -/

/-- `Math.sqrt(dx*dx + dy*dy)` — the node-to-circle-center distance computed in
`forceBoundary`. -/
noncomputable def distOf (circle : VennCircle) (d : SimNode) : ℝ :=
  Real.sqrt ((d.x - circle.x) * (d.x - circle.x) + (d.y - circle.y) * (d.y - circle.y))

/-- Magnitude of the velocity change between two states of a node. -/
noncomputable def velDelta (before after : SimNode) : ℝ :=
  Real.sqrt ((after.vx - before.vx) * (after.vx - before.vx)
    + (after.vy - before.vy) * (after.vy - before.vy))

/-- Inward pull: a member node beyond `radius − r` gets a velocity correction
of magnitude penetration × inGain × alpha. -/
theorem boundaryStep_member_delta (inGain outGain alpha : ℝ) (catId : String)
    (circle : VennCircle) (d : SimNode)
    (hmem : d.categories.contains catId = true)
    (hout : distOf circle d > circle.radius - d.r)
    (hpos : 0 < distOf circle d) (hg : 0 ≤ inGain) (halpha : 0 ≤ alpha) :
    velDelta d (boundaryStep inGain outGain alpha catId circle d)
      = (distOf circle d - (circle.radius - d.r)) * inGain * alpha := by
  unfold distOf at hout hpos
  unfold boundaryStep
  dsimp only
  rw [if_pos hmem, if_pos hout]
  unfold velDelta
  dsimp only
  set dx := d.x - circle.x with hdx
  set dy := d.y - circle.y with hdy
  set dist := Real.sqrt (dx * dx + dy * dy) with hdistdef
  set k := (dist - (circle.radius - d.r)) * inGain * alpha with hkdef
  have hdd : dist * dist = dx * dx + dy * dy :=
    Real.mul_self_sqrt (add_nonneg (mul_self_nonneg dx) (mul_self_nonneg dy))
  have hne : dist ≠ 0 := ne_of_gt hpos
  have hk : 0 ≤ k := by
    apply mul_nonneg (mul_nonneg (by linarith) hg) halpha
  clear_value dx dy dist k
  have huv : dx / dist * (dx / dist) + dy / dist * (dy / dist) = 1 := by
    field_simp
    linear_combination -hdd
  have harg : (d.vx - dx / dist * k - d.vx) * (d.vx - dx / dist * k - d.vx)
      + (d.vy - dy / dist * k - d.vy) * (d.vy - dy / dist * k - d.vy) = k * k := by
    have hexp : (d.vx - dx / dist * k - d.vx) * (d.vx - dx / dist * k - d.vx)
        + (d.vy - dy / dist * k - d.vy) * (d.vy - dy / dist * k - d.vy)
        = (dx / dist * (dx / dist) + dy / dist * (dy / dist)) * (k * k) := by ring
    rw [hexp, huv, one_mul]
  rw [harg, Real.sqrt_mul_self hk]
  have hdi : distOf circle d = dist := by rw [hdistdef, hdx, hdy]; rfl
  rw [hdi]
  exact hkdef

/-- Outward push: a non-member node within `radius + r` gets a velocity
correction of magnitude penetration × outGain × alpha. -/
theorem boundaryStep_nonmember_delta (inGain outGain alpha : ℝ) (catId : String)
    (circle : VennCircle) (d : SimNode)
    (hmem : d.categories.contains catId = false)
    (hin : distOf circle d < circle.radius + d.r)
    (hpos : 0 < distOf circle d) (hg : 0 ≤ outGain) (halpha : 0 ≤ alpha) :
    velDelta d (boundaryStep inGain outGain alpha catId circle d)
      = (circle.radius + d.r - distOf circle d) * outGain * alpha := by
  unfold distOf at hin hpos
  unfold boundaryStep
  dsimp only
  rw [if_neg (by rw [hmem]; exact Bool.false_ne_true), if_pos hin]
  unfold velDelta
  dsimp only
  set dx := d.x - circle.x with hdx
  set dy := d.y - circle.y with hdy
  set dist := Real.sqrt (dx * dx + dy * dy) with hdistdef
  set k := (circle.radius + d.r - dist) * outGain * alpha with hkdef
  have hdd : dist * dist = dx * dx + dy * dy :=
    Real.mul_self_sqrt (add_nonneg (mul_self_nonneg dx) (mul_self_nonneg dy))
  have hne : dist ≠ 0 := ne_of_gt hpos
  have hk : 0 ≤ k := by
    apply mul_nonneg (mul_nonneg (by linarith) hg) halpha
  clear_value dx dy dist k
  have huv : dx / dist * (dx / dist) + dy / dist * (dy / dist) = 1 := by
    field_simp
    linear_combination -hdd
  have harg : (d.vx + dx / dist * k - d.vx) * (d.vx + dx / dist * k - d.vx)
      + (d.vy + dy / dist * k - d.vy) * (d.vy + dy / dist * k - d.vy) = k * k := by
    have hexp : (d.vx + dx / dist * k - d.vx) * (d.vx + dx / dist * k - d.vx)
        + (d.vy + dy / dist * k - d.vy) * (d.vy + dy / dist * k - d.vy)
        = (dx / dist * (dx / dist) + dy / dist * (dy / dist)) * (k * k) := by ring
    rw [hexp, huv, one_mul]
  rw [harg, Real.sqrt_mul_self hk]
  have hdi : distOf circle d = dist := by rw [hdistdef, hdx, hdy]; rfl
  rw [hdi]
  exact hkdef

theorem forceBoundaryDots_single (catId : String) (circle : VennCircle) (d : SimNode)
    (alpha : ℝ) :
    (forceBoundaryDots [(catId, circle)] [d] alpha).headD d
      = boundaryStep 5 0.8 alpha catId circle d := rfl

theorem forceBoundaryPie_single (catId : String) (circle : VennCircle) (d : SimNode)
    (alpha : ℝ) :
    (forceBoundaryPie [(catId, circle)] [d] alpha).headD d
      = boundaryStep 0.1 0.8 alpha catId circle d := rfl

/-- **C1 (amended).** In both variants the boundary velocity correction has
magnitude penetration × gain × alpha — proportional to penetration depth times
the temperature.  The gains are asymmetric, but only the pie variant has the
outward gain (`0.8`) above the inward gain (`0.1`); in the dots variant the
inward gain (`5`) exceeds the outward gain (`0.8`), so there the inward delta
exceeds the outward delta at equal penetration and alpha. -/
theorem forceBoundary_magnitude_gains (catId : String) (circle : VennCircle)
    (d : SimNode) (alpha : ℝ) (halpha : 0 ≤ alpha) (hpos : 0 < distOf circle d) :
    (d.categories.contains catId = true → distOf circle d > circle.radius - d.r →
        velDelta d ((forceBoundaryDots [(catId, circle)] [d] alpha).headD d)
          = (distOf circle d - (circle.radius - d.r)) * 5 * alpha
        ∧ velDelta d ((forceBoundaryPie [(catId, circle)] [d] alpha).headD d)
          = (distOf circle d - (circle.radius - d.r)) * 0.1 * alpha)
    ∧ (d.categories.contains catId = false → distOf circle d < circle.radius + d.r →
        velDelta d ((forceBoundaryDots [(catId, circle)] [d] alpha).headD d)
          = (circle.radius + d.r - distOf circle d) * 0.8 * alpha
        ∧ velDelta d ((forceBoundaryPie [(catId, circle)] [d] alpha).headD d)
          = (circle.radius + d.r - distOf circle d) * 0.8 * alpha)
    ∧ ((0.1 : ℝ) < 0.8 ∧ (0.8 : ℝ) < 5) := by
  refine ⟨?_, ?_, by norm_num, by norm_num⟩
  · intro hmem hout
    rw [forceBoundaryDots_single, forceBoundaryPie_single]
    exact ⟨boundaryStep_member_delta 5 0.8 alpha catId circle d hmem hout hpos
        (by norm_num) halpha,
      boundaryStep_member_delta 0.1 0.8 alpha catId circle d hmem hout hpos
        (by norm_num) halpha⟩
  · intro hmem hin
    rw [forceBoundaryDots_single, forceBoundaryPie_single]
    exact ⟨boundaryStep_nonmember_delta 5 0.8 alpha catId circle d hmem hin hpos
        (by norm_num) halpha,
      boundaryStep_nonmember_delta 0.1 0.8 alpha catId circle d hmem hin hpos
        (by norm_num) halpha⟩

/-- A category circle of radius 10 at the origin, for the concrete check. -/
noncomputable def cexCircle : VennCircle := { x := 0, y := 0, radius := 10 }

/-- A member of `"c"` sitting at distance 12: penetration `12 − (10 − 3) = 5`. -/
noncomputable def cexMember : SimNode :=
  { id := "in", name := "in", categories := ["c"], people := [], groupId := "c",
    r := 3, x := 12, y := 0, vx := 0, vy := 0 }

/-- A non-member sitting at distance 8: penetration `(10 + 3) − 8 = 5`. -/
noncomputable def cexOutsider : SimNode :=
  { id := "out", name := "out", categories := [], people := [], groupId := "",
    r := 3, x := 8, y := 0, vx := 0, vy := 0 }

theorem cex_dist_member : distOf cexCircle cexMember = 12 := by
  unfold distOf cexCircle cexMember
  rw [show ((12:ℝ) - 0) * (12 - 0) + ((0:ℝ) - 0) * (0 - 0) = 12 ^ 2 by norm_num]
  exact Real.sqrt_sq (by norm_num)

theorem cex_dist_outsider : distOf cexCircle cexOutsider = 8 := by
  unfold distOf cexCircle cexOutsider
  rw [show ((8:ℝ) - 0) * (8 - 0) + ((0:ℝ) - 0) * (0 - 0) = 8 ^ 2 by norm_num]
  exact Real.sqrt_sq (by norm_num)

/-- Counterexample to C1 as stated: in the dots variant (`SkillChart.tsx`,
inward gain `5`, outward gain `0.8`), at equal penetration depth `5` and
`alpha = 1`, the outward velocity delta is `4` and the inward one is `25`:
the outward delta does **not** exceed the inward delta. -/
theorem forceBoundary_gain_counterexample :
    cexCircle.radius + cexOutsider.r - distOf cexCircle cexOutsider = 5
    ∧ distOf cexCircle cexMember - (cexCircle.radius - cexMember.r) = 5
    ∧ velDelta cexOutsider
        ((forceBoundaryDots [("c", cexCircle)] [cexOutsider] 1).headD cexOutsider) = 4
    ∧ velDelta cexMember
        ((forceBoundaryDots [("c", cexCircle)] [cexMember] 1).headD cexMember) = 25
    ∧ ¬ (velDelta cexOutsider
          ((forceBoundaryDots [("c", cexCircle)] [cexOutsider] 1).headD cexOutsider)
        > velDelta cexMember
            ((forceBoundaryDots [("c", cexCircle)] [cexMember] 1).headD cexMember)) := by
  have hpen_out : cexCircle.radius + cexOutsider.r - distOf cexCircle cexOutsider = 5 := by
    rw [cex_dist_outsider]
    show (10 : ℝ) + 3 - 8 = 5
    norm_num
  have hpen_in : distOf cexCircle cexMember - (cexCircle.radius - cexMember.r) = 5 := by
    rw [cex_dist_member]
    show (12 : ℝ) - (10 - 3) = 5
    norm_num
  have hout : velDelta cexOutsider
      ((forceBoundaryDots [("c", cexCircle)] [cexOutsider] 1).headD cexOutsider) = 4 := by
    rw [forceBoundaryDots_single,
      boundaryStep_nonmember_delta 5 0.8 1 "c" cexCircle cexOutsider (by decide)
        (by rw [cex_dist_outsider]; show (8:ℝ) < 10 + 3; norm_num)
        (by rw [cex_dist_outsider]; norm_num) (by norm_num) (by norm_num),
      hpen_out]
    norm_num
  have hin : velDelta cexMember
      ((forceBoundaryDots [("c", cexCircle)] [cexMember] 1).headD cexMember) = 25 := by
    rw [forceBoundaryDots_single,
      boundaryStep_member_delta 5 0.8 1 "c" cexCircle cexMember (by decide)
        (by rw [cex_dist_member]; show (12:ℝ) > 10 - 3; norm_num)
        (by rw [cex_dist_member]; norm_num) (by norm_num) (by norm_num),
      hpen_in]
    norm_num
  refine ⟨hpen_out, hpen_in, hout, hin, ?_⟩
  rw [hout, hin]
  norm_num

/-- Witness for the amended C1 at the concrete member node: its inward delta is
`5 · 5 · 1 = 25` in the dots variant and `5 · 0.1 · 1 = 0.5` in the pie
variant. -/
theorem forceBoundary_magnitude_gains_witness :
    velDelta cexMember
        ((forceBoundaryDots [("c", cexCircle)] [cexMember] 1).headD cexMember)
      = (distOf cexCircle cexMember - (cexCircle.radius - cexMember.r)) * 5 * 1
    ∧ velDelta cexMember
        ((forceBoundaryPie [("c", cexCircle)] [cexMember] 1).headD cexMember)
      = (distOf cexCircle cexMember - (cexCircle.radius - cexMember.r)) * 0.1 * 1 :=
  (forceBoundary_magnitude_gains "c" cexCircle cexMember 1 (by norm_num)
    (by rw [cex_dist_member]; norm_num)).1 (by decide)
    (by rw [cex_dist_member]; show (12:ℝ) > 10 - 3; norm_num)

/-! ## Pie-slice ordering (pie variant, lines 496–519) -/

/-- The `order` record of the pie sort comparator:
`{ expert: 0, advanced: 1, intermediate: 2, beginner: 3 }`. -/
def pieProfOrder (p : String) : Option ℕ :=
  if p = "expert" then some 0
  else if p = "advanced" then some 1
  else if p = "intermediate" then some 2
  else if p = "beginner" then some 3
  else none

/-- JavaScript `x || 4` where `x` is a number-or-`undefined`: `undefined` *and*
the falsy number `0` both yield `4`. -/
def jsOrFour : Option ℕ → ℕ
  | none => 4
  | some n => if n = 0 then 4 else n

/-- `order[a.proficiency as keyof typeof order] || 4` — the effective key the
comparator sorts by. -/
def pieSortValue (p : String) : ℕ := jsOrFour (pieProfOrder p)

/-- The comparator passed to `d3.pie().sort` (lines 501–513). -/
def pieCompare (a b : PersonNode) : ℤ :=
  (pieSortValue a.proficiency : ℤ) - (pieSortValue b.proficiency : ℤ)

/-- Modelled from the spec (external d3 capability): `d3.pie().sort(cmp)`
assigns the slice angles in ascending comparator order, stably; the angular
order of the slices is the comparator-sorted data list. -/
def pieSliceOrder (people : List PersonNode) : List PersonNode :=
  people.insertionSort (fun a b => pieCompare a b ≤ 0)

/-- `.padAngle(0.1)` (line 500). -/
def piePadAngle : ℚ := 0.1

/-- `.value(1)` — equal-size slices (line 499). -/
def pieSliceValue (_ : PersonNode) : ℚ := 1

def pExpert : PersonNode :=
  { id := "m1", name := "E", role := "dev", proficiency := "expert", r := 4 }

def pAdvanced : PersonNode :=
  { id := "m2", name := "A", role := "dev", proficiency := "advanced", r := 4 }

/-- **C8 (code bug).** Slices are equal-weight (`value(1)`) and separated by
the non-zero pad angle `0.1` as claimed, but the `|| 4` default also swallows
the expert weight `0` (falsy in JavaScript), so an expert slice sorts with key
`4` — after advanced (1), intermediate (2) and beginner (3) — contradicting
the expert-first descending order the spec states and the `order` table
intends: with one expert and one advanced person, the angular order is
`[advanced, expert]`. -/
theorem pie_sort_expert_last :
    pieSortValue "expert" = 4
    ∧ pieSortValue "advanced" = 1
    ∧ pieCompare pExpert pAdvanced = 3
    ∧ pieSliceOrder [pExpert, pAdvanced] = [pAdvanced, pExpert]
    ∧ (0 : ℚ) < piePadAngle
    ∧ pieSliceValue pExpert = 1 := by
  refine ⟨by decide, by decide, by decide, by decide, ?_, by decide⟩
  norm_num [piePadAngle]

end RoboSkills
